import Mathlib

/-!
Verification of the resilient JSON recovery parser `robustParseJSON`
(src/services/geminiService.ts).  Texts are modelled as `List Char`; the
standard-library `JSON.parse` oracle is modelled by `jsonParse`, a direct
embedding of the JSON grammar as consumed by the ECMAScript built-in
(objects keep their members in insertion order; a duplicate key overwrites
the earlier value in place, last value wins).
-/

/-- A parsed JSON value.  Numbers keep their source lexeme, strings are the
decoded code units, objects are ordered member lists. -/
inductive JValue where
  | null
  | bool (b : Bool)
  | num (lit : List Char)
  | str (s : List Nat)
  | arr (elems : List JValue)
  | obj (members : List (List Nat × JValue))

/-- Decoded code units of a Lean string literal, used to write expected keys
and string values compactly. -/
def jstr (s : String) : List Nat := s.toList.map Char.toNat

/-- JSON grammar insignificant whitespace: space, tab, line feed, carriage
return. -/
def jsonWs (c : Char) : Bool :=
  c == ' ' || c == '\t' || c == '\n' || c == '\r'

/-- Skip JSON grammar whitespace. -/
def skipWs (l : List Char) : List Char := l.dropWhile jsonWs

/-- ASCII decimal digit test. -/
def isDigit (c : Char) : Bool := 48 ≤ c.toNat && c.toNat ≤ 57

/-- Value of one hexadecimal digit. -/
def hexVal (c : Char) : Option Nat :=
  if 48 ≤ c.toNat ∧ c.toNat ≤ 57 then some (c.toNat - 48)
  else if 65 ≤ c.toNat ∧ c.toNat ≤ 70 then some (c.toNat - 55)
  else if 97 ≤ c.toNat ∧ c.toNat ≤ 102 then some (c.toNat - 87)
  else none

/-- Code unit denoted by a single-character escape sequence. -/
def simpleEsc (c : Char) : Option Nat :=
  if c = '"' then some 34
  else if c = '\\' then some 92
  else if c = '/' then some 47
  else if c = 'b' then some 8
  else if c = 'f' then some 12
  else if c = 'n' then some 10
  else if c = 'r' then some 13
  else if c = 't' then some 9
  else none

/-- Parse the body of a JSON string literal (the opening quote already
consumed), up to and including the closing quote.  Returns the decoded code
units and the remaining input.  Fuel decreases at every consumed character,
so `length + 1` fuel always suffices. -/
def parseStringBody : Nat → List Char → Option (List Nat × List Char)
  | 0, _ => none
  | _ + 1, [] => none
  | fuel + 1, c :: rest =>
    if c = '"' then some ([], rest)
    else if c = '\\' then
      match rest with
      | [] => none
      | e :: rest2 =>
        if e = 'u' then
          match rest2 with
          | a :: b :: c2 :: d :: rest3 =>
            match hexVal a, hexVal b, hexVal c2, hexVal d with
            | some ha, some hb, some hc, some hd =>
              match parseStringBody fuel rest3 with
              | some (s, r) => some ((((ha * 16 + hb) * 16 + hc) * 16 + hd) :: s, r)
              | none => none
            | _, _, _, _ => none
          | _ => none
        else
          match simpleEsc e with
          | some n =>
            match parseStringBody fuel rest2 with
            | some (s, r) => some (n :: s, r)
            | none => none
          | none => none
    else if c.toNat < 32 then none
    else
      match parseStringBody fuel rest with
      | some (s, r) => some (c.toNat :: s, r)
      | none => none

/-- Parse the integer part of a JSON number: `0`, or a nonzero digit
followed by digits. -/
def parseIntPart : List Char → Option (List Char × List Char)
  | [] => none
  | c :: rest =>
    if c = '0' then some (['0'], rest)
    else if isDigit c then
      some (c :: rest.takeWhile isDigit, rest.dropWhile isDigit)
    else none

/-- Parse an optional fraction part `.digits` of a JSON number. -/
def parseFrac (l : List Char) : Option (List Char × List Char) :=
  match l with
  | '.' :: r =>
    if r.takeWhile isDigit = [] then none
    else some ('.' :: r.takeWhile isDigit, r.dropWhile isDigit)
  | _ => some ([], l)

/-- Parse an optional exponent part `e[+-]digits` of a JSON number. -/
def parseExp (l : List Char) : Option (List Char × List Char) :=
  match l with
  | c :: r =>
    if c = 'e' ∨ c = 'E' then
      match r with
      | s :: r2 =>
        if s = '+' ∨ s = '-' then
          if r2.takeWhile isDigit = [] then none
          else some (c :: s :: r2.takeWhile isDigit, r2.dropWhile isDigit)
        else
          if r.takeWhile isDigit = [] then none
          else some (c :: r.takeWhile isDigit, r.dropWhile isDigit)
      | [] => none
    else some ([], l)
  | [] => some ([], l)

/-- Integer, fraction and exponent parts of a JSON number, prefixed by an
already-consumed sign. -/
def parseNumTail (neg : List Char) (m : List Char) :
    Option (List Char × List Char) :=
  match parseIntPart m with
  | none => none
  | some (ip, l2) =>
    match parseFrac l2 with
    | none => none
    | some (fp, l3) =>
      match parseExp l3 with
      | none => none
      | some (ep, l4) => some (neg ++ ip ++ fp ++ ep, l4)

/-- Parse a JSON number token; returns its lexeme and the rest. -/
def parseNumber (l : List Char) : Option (List Char × List Char) :=
  match l with
  | '-' :: l1 => parseNumTail ['-'] l1
  | _ => parseNumTail [] l

/-- ECMAScript object member insertion: a duplicate key overwrites the
earlier value in place, otherwise the member is appended. -/
def insertMember (ms : List (List Nat × JValue)) (k : List Nat) (v : JValue) :
    List (List Nat × JValue) :=
  if ms.any (fun p => p.1 == k) then
    ms.map (fun p => if p.1 == k then (k, v) else p)
  else ms ++ [(k, v)]

/-- Recursive-descent mode: a single value, the element list of an array
(accumulator holds the elements parsed so far), or the member list of an
object. -/
inductive PMode where
  | val
  | elems (acc : List JValue)
  | members (acc : List (List Nat × JValue))

/-- The JSON grammar, fuel-indexed.  `PMode.val` parses one value whose
first character is at the head of the input; `PMode.elems`/`PMode.members`
parse the remainder of an array/object after `[` or `,` (whitespace already
skipped). -/
def parseRun : Nat → PMode → List Char → Option (JValue × List Char)
  | 0, _, _ => none
  | fuel + 1, PMode.val, l =>
    match l with
    | [] => none
    | c :: rest =>
      if c = '{' then
        match skipWs rest with
        | '}' :: r2 => some (JValue.obj [], r2)
        | r1 => parseRun fuel (PMode.members []) r1
      else if c = '[' then
        match skipWs rest with
        | ']' :: r2 => some (JValue.arr [], r2)
        | r1 => parseRun fuel (PMode.elems []) r1
      else if c = '"' then
        match parseStringBody (rest.length + 1) rest with
        | some (s, r) => some (JValue.str s, r)
        | none => none
      else if c = 't' then
        match rest with
        | 'r' :: 'u' :: 'e' :: r => some (JValue.bool true, r)
        | _ => none
      else if c = 'f' then
        match rest with
        | 'a' :: 'l' :: 's' :: 'e' :: r => some (JValue.bool false, r)
        | _ => none
      else if c = 'n' then
        match rest with
        | 'u' :: 'l' :: 'l' :: r => some (JValue.null, r)
        | _ => none
      else if c = '-' ∨ isDigit c then
        match parseNumber l with
        | some (lex, r) => some (JValue.num lex, r)
        | none => none
      else none
  | fuel + 1, PMode.elems acc, l =>
    match parseRun fuel PMode.val l with
    | none => none
    | some (v, r) =>
      match skipWs r with
      | ']' :: r3 => some (JValue.arr (acc ++ [v]), r3)
      | ',' :: r3 => parseRun fuel (PMode.elems (acc ++ [v])) (skipWs r3)
      | _ => none
  | fuel + 1, PMode.members acc, l =>
    match l with
    | '"' :: r =>
      match parseStringBody (r.length + 1) r with
      | none => none
      | some (k, r1) =>
        match skipWs r1 with
        | ':' :: r2 =>
          match parseRun fuel PMode.val (skipWs r2) with
          | none => none
          | some (v, r3) =>
            match skipWs r3 with
            | '}' :: r4 => some (JValue.obj (insertMember acc k v), r4)
            | ',' :: r4 => parseRun fuel (PMode.members (insertMember acc k v)) (skipWs r4)
            | _ => none
        | _ => none
    | _ => none

/-- The standard-library JSON parse: a full JSON text is whitespace, one
value, whitespace, end of input.  The fuel bound `2 * length + 2` exceeds
the two fuel steps ever spent per consumed character. -/
def jsonParse (l : List Char) : Option JValue :=
  match parseRun (2 * l.length + 2) PMode.val (skipWs l) with
  | some (v, r) => if skipWs r = [] then some v else none
  | none => none

/-- ECMAScript `String.prototype.trim` whitespace: WhiteSpace and
LineTerminator code points. -/
def jsWhite (c : Char) : Bool :=
  c.toNat = 9 || c.toNat = 10 || c.toNat = 11 || c.toNat = 12 ||
  c.toNat = 13 || c.toNat = 32 || c.toNat = 160 || c.toNat = 0x1680 ||
  (0x2000 ≤ c.toNat && c.toNat ≤ 0x200A) || c.toNat = 0x2028 ||
  c.toNat = 0x2029 || c.toNat = 0x202F || c.toNat = 0x205F ||
  c.toNat = 0x3000 || c.toNat = 0xFEFF

/-- `text.trim()`: drop leading and trailing whitespace. -/
def jsTrim (l : List Char) : List Char :=
  ((l.dropWhile jsWhite).reverse.dropWhile jsWhite).reverse

/-- Number of double-quote characters, as counted by the source's
global-regex match. -/
def countQuotes (l : List Char) : Nat := l.countP (fun c => c == '"')

/-- Recovery step 1 of `robustParseJSON`: append one quote when the quote
count is odd. -/
def quotePatch (l : List Char) : List Char :=
  if countQuotes l % 2 ≠ 0 then l ++ ['"'] else l

/-- State of the source's structural scan.  The head of `stack` is the most
recently pushed closer (the top, i.e. the last element of the source's
array). -/
structure ScanState where
  stack : List Char
  inString : Bool
  escaped : Bool
deriving DecidableEq

/-- The in-string flag after the scan loop's first statement: an unescaped
quote toggles it. -/
def quoteToggle (st : ScanState) (c : Char) : Bool :=
  if (c == '"') && !st.escaped then !st.inString else st.inString

/-- One iteration of the source's scan loop, translated line by line:
an unescaped quote toggles the in-string flag; inside a string only the
escape flag is updated; outside, brackets push their closer and a closer
matching the top of the stack pops it. -/
def scanStep (st : ScanState) (c : Char) : ScanState :=
  if quoteToggle st c then
    { st with inString := quoteToggle st c, escaped := (c == '\\') && !st.escaped }
  else if c == '{' then
    { stack := '}' :: st.stack, inString := quoteToggle st c, escaped := st.escaped }
  else if c == '[' then
    { stack := ']' :: st.stack, inString := quoteToggle st c, escaped := st.escaped }
  else if c == '}' || c == ']' then
    match st.stack with
    | top :: restStack =>
      if top == c then
        { stack := restStack, inString := quoteToggle st c, escaped := st.escaped }
      else { st with inString := quoteToggle st c }
    | [] => { st with inString := quoteToggle st c }
  else { st with inString := quoteToggle st c }

/-- Run the scan from a given state. -/
def scanFrom (st : ScanState) (l : List Char) : ScanState := l.foldl scanStep st

/-- The source's scan, started from the empty stack outside any string. -/
def scanChars (l : List Char) : ScanState := scanFrom ⟨[], false, false⟩ l

/-- Recovery step 2 of `robustParseJSON`: append the closers still on the
stack, in pop order (head of the list first). -/
def closeBrackets (l : List Char) : List Char := l ++ (scanChars l).stack

/-- The full repair applied to a text whose direct parse failed. -/
def repair (l : List Char) : List Char := closeBrackets (quotePatch l)

/-- The fixed user-facing message of the thrown error. -/
def malformedMsg : String :=
  "AI response was malformed or truncated due to its length. Please try a more specific query or fewer URLs."

/-- `robustParseJSON` (src/services/geminiService.ts): trim, try a direct
parse, otherwise repair and retry, otherwise fail with the fixed message. -/
def robustParseJSON (text : List Char) : Except String JValue :=
  match jsonParse (jsTrim text) with
  | some v => Except.ok v
  | none =>
    match jsonParse (repair (jsTrim text)) with
    | some v => Except.ok v
    | none => Except.error malformedMsg

/-- A text segment that, scanned from outside any string with the escape
flag clear, ends outside any string with the escape flag clear. -/
def StrClean (l : List Char) : Prop :=
  ∀ st : ScanState, st.inString = false → st.escaped = false →
    (scanFrom st l).inString = false ∧ (scanFrom st l).escaped = false

/-- A text segment that, scanned from inside a string with the escape flag
clear, closes the string: the scan ends outside, escape flag clear, and the
stack is untouched. -/
def StrClose (l : List Char) : Prop :=
  ∀ st : ScanState, st.inString = true → st.escaped = false →
    (scanFrom st l).inString = false ∧ (scanFrom st l).escaped = false ∧
      (scanFrom st l).stack = st.stack

/-- The truncated escaped-quote example from the specification. -/
def c2in : List Char :=
  ['{', '"', 'a', '"', ':', ' ', '"', 's', 'h', 'e', ' ', 's', 'a', 'i',
   'd', ' ', '\\', '"', 'h', 'i']

/-- The odd-quote-count truncation example. -/
def c4in : List Char :=
  ['{', '"', 'a', '"', ':', ' ', '"', 'h', 'e', 'l', 'l', 'o']

/-- The nested truncation example. -/
def c5in : List Char :=
  ['{', '"', 'a', '"', ':', ' ', '[', '1', ',', ' ', '2', ',', ' ', '{',
   '"', 'b', '"', ':', ' ', '3']

/-- The structurally malformed, unrecoverable example. -/
def c6in : List Char := ['{', '"', 'a', '"', ':', ' ', '}']

/-- An object text with a duplicated key. -/
def c8dup : List Char :=
  ['{', '"', 'a', '"', ':', '1', ',', '"', 'a', '"', ':', '2', '}']

/-- An object text with several distinct keys and a multi-element array. -/
def c8ord : List Char :=
  ['{', '"', 'b', '"', ':', '1', ',', '"', 'a', '"', ':', '2', ',', '"',
   'c', '"', ':', '[', '3', ',', '1', ',', '2', ']', '}']

/-- A text ending inside a string literal whose quote count is even. -/
def c10in : List Char := ['"', '\\', '"']

/-! ### List scanning helper lemmas -/

theorem dropWhile_append_all {p : Char → Bool} {w : List Char} (l : List Char)
    (h : ∀ c ∈ w, p c = true) : (w ++ l).dropWhile p = l.dropWhile p := by
  induction w with
  | nil => rfl
  | cons a w ih =>
    simp only [List.cons_append, List.dropWhile_cons_of_pos (h a (by simp))]
    exact ih (fun c hc => h c (by simp [hc]))

theorem dropWhile_eq_nil_all {p : Char → Bool} {l : List Char}
    (h : l.dropWhile p = []) : ∀ c ∈ l, p c = true := by
  induction l with
  | nil => intro c hc; cases hc
  | cons a l ih =>
    intro c hc
    by_cases ha : p a = true
    · rw [List.dropWhile_cons_of_pos ha] at h
      rcases hc with _ | hc
      · exact ha
      · exact ih h c (by assumption)
    · rw [List.dropWhile_cons_of_neg (by simpa using ha)] at h
      cases h

theorem all_dropWhile_eq_nil {p : Char → Bool} {l : List Char}
    (h : ∀ c ∈ l, p c = true) : l.dropWhile p = [] := by
  induction l with
  | nil => rfl
  | cons a l ih =>
    rw [List.dropWhile_cons_of_pos (h a (by simp))]
    exact ih (fun c hc => h c (by simp [hc]))

theorem dropWhile_append_of_cons {p : Char → Bool} {l : List Char} {c : Char}
    {rest : List Char} (w : List Char) (h : l.dropWhile p = c :: rest) :
    (l ++ w).dropWhile p = c :: rest ++ w := by
  induction l with
  | nil => cases h
  | cons a l ih =>
    by_cases ha : p a = true
    · rw [List.dropWhile_cons_of_pos ha] at h
      simpa [List.dropWhile_cons_of_pos ha] using ih h
    · rw [List.dropWhile_cons_of_neg (by simpa using ha)] at h
      cases h
      simp [List.dropWhile_cons_of_neg (by simpa using ha)]

/-! ### Trim lemmas -/

theorem jsTrim_white_append {w : List Char} (t : List Char)
    (h : ∀ c ∈ w, jsWhite c = true) : jsTrim (w ++ t) = jsTrim t := by
  unfold jsTrim
  rw [dropWhile_append_all t h]

theorem jsTrim_append_white {w : List Char} (t : List Char)
    (h : ∀ c ∈ w, jsWhite c = true) : jsTrim (t ++ w) = jsTrim t := by
  unfold jsTrim
  rcases hd : t.dropWhile jsWhite with _ | ⟨c, rest⟩
  · rw [dropWhile_append_all w (dropWhile_eq_nil_all hd), all_dropWhile_eq_nil h]
  · rw [dropWhile_append_of_cons w hd]
    simp only [List.cons_append, List.reverse_cons, List.reverse_append]
    rw [List.append_assoc, dropWhile_append_all _ (by simpa using h)]

theorem jsTrim_eq_nil_of_white {t : List Char}
    (h : ∀ c ∈ t, jsWhite c = true) : jsTrim t = [] := by
  unfold jsTrim
  rw [all_dropWhile_eq_nil h]
  rfl

/-! ### Behaviour of `robustParseJSON` as a function of the trimmed text -/

theorem robustParseJSON_ok {t : List Char} {v : JValue}
    (h : jsonParse (jsTrim t) = some v) : robustParseJSON t = Except.ok v := by
  unfold robustParseJSON
  rw [h]

theorem robustParseJSON_err {t : List Char}
    (h1 : jsonParse (jsTrim t) = none)
    (h2 : jsonParse (repair (jsTrim t)) = none) :
    robustParseJSON t = Except.error malformedMsg := by
  unfold robustParseJSON
  rw [h1, h2]

theorem robustParseJSON_congr {a b : List Char} (h : jsTrim a = jsTrim b) :
    robustParseJSON a = robustParseJSON b := by
  unfold robustParseJSON
  rw [h]

/-! ### Flag behaviour of single scan steps -/

theorem scanFrom_nil (st : ScanState) : scanFrom st [] = st := rfl

theorem scanFrom_cons (st : ScanState) (c : Char) (l : List Char) :
    scanFrom st (c :: l) = scanFrom (scanStep st c) l := rfl

theorem scanFrom_append (st : ScanState) (a b : List Char) :
    scanFrom st (a ++ b) = scanFrom (scanFrom st a) b :=
  List.foldl_append ..

theorem outStep_notquote {st : ScanState} {c : Char} (hc : c ≠ '"')
    (h1 : st.inString = false) (h2 : st.escaped = false) :
    (scanStep st c).inString = false ∧ (scanStep st c).escaped = false := by
  obtain ⟨stk, instr, esc⟩ := st
  simp only at h1 h2
  subst h1; subst h2
  have ht : quoteToggle ⟨stk, false, false⟩ c = false := by
    simp [quoteToggle, hc]
  unfold scanStep
  rw [ht]
  simp only [Bool.false_eq_true, if_false]
  split
  · simp
  · split
    · simp
    · split
      · split
        · split <;> simp
        · simp
      · simp

theorem outStep_quote {st : ScanState} (h1 : st.inString = false)
    (h2 : st.escaped = false) :
    (scanStep st '"').inString = true ∧ (scanStep st '"').escaped = false ∧
      (scanStep st '"').stack = st.stack := by
  obtain ⟨stk, instr, esc⟩ := st
  simp only at h1 h2
  subst h1; subst h2
  simp [scanStep, quoteToggle]

theorem inStep_notquote {st : ScanState} {c : Char} (hc : c ≠ '"')
    (h1 : st.inString = true) (h2 : st.escaped = false) :
    (scanStep st c).inString = true ∧ (scanStep st c).escaped = (c == '\\') ∧
      (scanStep st c).stack = st.stack := by
  obtain ⟨stk, instr, esc⟩ := st
  simp only at h1 h2
  subst h1; subst h2
  have ht : quoteToggle ⟨stk, true, false⟩ c = true := by
    simp [quoteToggle, hc]
  unfold scanStep
  rw [ht]
  simp

theorem inStep_escaped {st : ScanState} (c : Char) (h1 : st.inString = true)
    (h2 : st.escaped = true) :
    (scanStep st c).inString = true ∧ (scanStep st c).escaped = false ∧
      (scanStep st c).stack = st.stack := by
  obtain ⟨stk, instr, esc⟩ := st
  simp only at h1 h2
  subst h1; subst h2
  have ht : quoteToggle ⟨stk, true, true⟩ c = true := by
    simp [quoteToggle]
  unfold scanStep
  rw [ht]
  simp

theorem inStep_quote {st : ScanState} (h1 : st.inString = true)
    (h2 : st.escaped = false) :
    (scanStep st '"').inString = false ∧ (scanStep st '"').escaped = false ∧
      (scanStep st '"').stack = st.stack := by
  obtain ⟨stk, instr, esc⟩ := st
  simp only at h1 h2
  subst h1; subst h2
  simp [scanStep, quoteToggle]

/-! ### Clean segments of the scan -/

theorem strClean_nil : StrClean [] := by
  intro st h1 h2
  exact ⟨h1, h2⟩

theorem strClean_append {a b : List Char} (ha : StrClean a) (hb : StrClean b) :
    StrClean (a ++ b) := by
  intro st h1 h2
  rw [scanFrom_append]
  obtain ⟨i1, i2⟩ := ha st h1 h2
  exact hb _ i1 i2

theorem strClean_cons {c : Char} {l : List Char} (hc : c ≠ '"')
    (hl : StrClean l) : StrClean (c :: l) := by
  intro st h1 h2
  rw [scanFrom_cons]
  obtain ⟨i1, i2⟩ := outStep_notquote hc h1 h2
  exact hl _ i1 i2

theorem strClean_singleton {c : Char} (hc : c ≠ '"') : StrClean [c] :=
  strClean_cons hc strClean_nil

theorem noQuote_strClean {l : List Char} (h : ∀ c ∈ l, c ≠ '"') :
    StrClean l := by
  induction l with
  | nil => exact strClean_nil
  | cons a l ih =>
    exact strClean_cons (h a (by simp)) (ih fun c hc => h c (by simp [hc]))

theorem strClean_string {b : List Char} (hb : StrClose b) :
    StrClean ('"' :: b) := by
  intro st h1 h2
  rw [scanFrom_cons]
  obtain ⟨i1, i2, _⟩ := outStep_quote h1 h2
  obtain ⟨j1, j2, _⟩ := hb _ i1 i2
  exact ⟨j1, j2⟩

theorem jsonWs_ne_quote {c : Char} (h : jsonWs c = true) : c ≠ '"' := by
  rintro rfl
  simp [jsonWs] at h

theorem strClean_ws_take (l : List Char) : StrClean (l.takeWhile jsonWs) :=
  noQuote_strClean fun c hc => jsonWs_ne_quote (List.mem_takeWhile_imp hc)

theorem skipWs_split (l : List Char) : l = l.takeWhile jsonWs ++ skipWs l :=
  (List.takeWhile_append_dropWhile jsonWs l).symm

/-! ### Consumed-segment lemmas for the token parsers -/

theorem hexVal_ne_quote {c : Char} {n : Nat} (h : hexVal c = some n) :
    c ≠ '"' := by
  rintro rfl
  rw [show hexVal '"' = none from rfl] at h
  cases h

theorem hexVal_ne_backslash {c : Char} {n : Nat} (h : hexVal c = some n) :
    c ≠ '\\' := by
  rintro rfl
  rw [show hexVal '\\' = none from rfl] at h
  cases h

theorem strClose_of_cons_plain {c : Char} {l : List Char} (hq : c ≠ '"')
    (hb : c ≠ '\\') (hl : StrClose l) : StrClose (c :: l) := by
  intro st h1 h2
  rw [scanFrom_cons]
  obtain ⟨i1, i2, i3⟩ := inStep_notquote hq h1 h2
  rw [show (c == '\\') = false by simp [hb]] at i2
  obtain ⟨j1, j2, j3⟩ := hl _ i1 i2
  exact ⟨j1, j2, by rw [j3, i3]⟩

theorem strClose_of_escape {e : Char} {l : List Char} (hl : StrClose l) :
    StrClose ('\\' :: e :: l) := by
  intro st h1 h2
  rw [scanFrom_cons, scanFrom_cons]
  obtain ⟨i1, i2, i3⟩ := @inStep_notquote st '\\' (by decide) h1 h2
  rw [show (('\\' : Char) == '\\') = true by decide] at i2
  obtain ⟨j1, j2, j3⟩ := inStep_escaped e i1 i2
  obtain ⟨k1, k2, k3⟩ := hl _ j1 j2
  exact ⟨k1, k2, by rw [k3, j3, i3]⟩

theorem strClose_quote : StrClose ['"'] := by
  intro st h1 h2
  rw [scanFrom_cons, scanFrom_nil]
  exact inStep_quote h1 h2

theorem parseStringBody_consumed :
    ∀ (fuel : Nat) (l : List Char) (s : List Nat) (r : List Char),
      parseStringBody fuel l = some (s, r) → ∃ c, l = c ++ r ∧ StrClose c := by
  intro fuel
  induction fuel with
  | zero => intro l s r h; simp [parseStringBody] at h
  | succ fuel ih =>
    intro l s r h
    rcases l with _ | ⟨c, rest⟩
    · simp [parseStringBody] at h
    · simp only [parseStringBody] at h
      by_cases hq : c = '"'
      · subst hq
        rw [if_pos rfl] at h
        simp only [Option.some.injEq, Prod.mk.injEq] at h
        obtain ⟨-, rfl⟩ := h
        exact ⟨['"'], rfl, strClose_quote⟩
      · rw [if_neg hq] at h
        by_cases hb : c = '\\'
        · subst hb
          rw [if_pos rfl] at h
          rcases rest with _ | ⟨e, rest2⟩
          · cases h
          · simp only at h
            by_cases hu : e = 'u'
            · subst hu
              rw [if_pos rfl] at h
              rcases rest2 with _ | ⟨a, rest3⟩
              · cases h
              rcases rest3 with _ | ⟨b, rest4⟩
              · cases h
              rcases rest4 with _ | ⟨c2, rest5⟩
              · cases h
              rcases rest5 with _ | ⟨d, rest6⟩
              · cases h
              simp only at h
              rcases ha : hexVal a with _ | na
              · rw [ha] at h; simp at h
              rcases hb2 : hexVal b with _ | nb
              · rw [ha, hb2] at h; simp at h
              rcases hc2 : hexVal c2 with _ | nc
              · rw [ha, hb2, hc2] at h; simp at h
              rcases hd2 : hexVal d with _ | nd
              · rw [ha, hb2, hc2, hd2] at h; simp at h
              rw [ha, hb2, hc2, hd2] at h
              simp only at h
              rcases heq : parseStringBody fuel rest6 with _ | ⟨s', r'⟩
              · rw [heq] at h; simp at h
              · rw [heq] at h
                simp only [Option.some.injEq, Prod.mk.injEq] at h
                obtain ⟨-, hr⟩ := h
                subst hr
                obtain ⟨cc, hdec, hclose⟩ := ih rest6 s' r' heq
                subst hdec
                refine ⟨'\\' :: 'u' :: a :: b :: c2 :: d :: cc, rfl, ?_⟩
                refine strClose_of_escape ?_
                refine strClose_of_cons_plain (hexVal_ne_quote ha)
                  (hexVal_ne_backslash ha) ?_
                refine strClose_of_cons_plain (hexVal_ne_quote hb2)
                  (hexVal_ne_backslash hb2) ?_
                refine strClose_of_cons_plain (hexVal_ne_quote hc2)
                  (hexVal_ne_backslash hc2) ?_
                exact strClose_of_cons_plain (hexVal_ne_quote hd2)
                  (hexVal_ne_backslash hd2) hclose
            · rw [if_neg hu] at h
              rcases hesc : simpleEsc e with _ | n
              · rw [hesc] at h; simp at h
              · rw [hesc] at h
                simp only at h
                rcases heq : parseStringBody fuel rest2 with _ | ⟨s', r'⟩
                · rw [heq] at h; simp at h
                · rw [heq] at h
                  simp only [Option.some.injEq, Prod.mk.injEq] at h
                  obtain ⟨-, hr⟩ := h
                  subst hr
                  obtain ⟨cc, hdec, hclose⟩ := ih rest2 s' r' heq
                  subst hdec
                  exact ⟨'\\' :: e :: cc, rfl, strClose_of_escape hclose⟩
        · rw [if_neg hb] at h
          by_cases hctl : c.toNat < 32
          · rw [if_pos hctl] at h
            cases h
          · rw [if_neg hctl] at h
            rcases heq : parseStringBody fuel rest with _ | ⟨s', r'⟩
            · rw [heq] at h; simp at h
            · rw [heq] at h
              simp only [Option.some.injEq, Prod.mk.injEq] at h
              obtain ⟨-, hr⟩ := h
              subst hr
              obtain ⟨cc, hdec, hclose⟩ := ih rest s' r' heq
              subst hdec
              exact ⟨c :: cc, rfl, strClose_of_cons_plain hq hb hclose⟩

theorem isDigit_ne_quote {c : Char} (h : isDigit c = true) : c ≠ '"' := by
  rintro rfl
  simp [isDigit] at h

theorem takeWhile_isDigit_noQuote (l : List Char) :
    ∀ c ∈ l.takeWhile isDigit, c ≠ '"' :=
  fun c hc => isDigit_ne_quote (List.mem_takeWhile_imp hc)

theorem parseIntPart_consumed {l ip r : List Char}
    (h : parseIntPart l = some (ip, r)) :
    l = ip ++ r ∧ ∀ c ∈ ip, c ≠ '"' := by
  rcases l with _ | ⟨c, rest⟩
  · cases h
  · simp only [parseIntPart] at h
    by_cases h0 : c = '0'
    · subst h0
      rw [if_pos rfl] at h
      simp only [Option.some.injEq, Prod.mk.injEq] at h
      obtain ⟨rfl, rfl⟩ := h
      exact ⟨rfl, by decide⟩
    · rw [if_neg h0] at h
      by_cases hd : isDigit c
      · rw [if_pos hd] at h
        simp only [Option.some.injEq, Prod.mk.injEq] at h
        obtain ⟨rfl, rfl⟩ := h
        constructor
        · simp [List.takeWhile_append_dropWhile]
        · intro x hx
          rcases hx with _ | hx
          · exact isDigit_ne_quote hd
          · exact takeWhile_isDigit_noQuote rest x (by assumption)
      · rw [if_neg hd] at h
        cases h

theorem parseFrac_consumed {l fp r : List Char}
    (h : parseFrac l = some (fp, r)) :
    l = fp ++ r ∧ ∀ c ∈ fp, c ≠ '"' := by
  rcases l with _ | ⟨c, rest⟩
  · simp only [parseFrac, Option.some.injEq, Prod.mk.injEq] at h
    obtain ⟨rfl, rfl⟩ := h
    exact ⟨rfl, by simp⟩
  · by_cases hdot : c = '.'
    · subst hdot
      simp only [parseFrac] at h
      split at h
      · cases h
      · simp only [Option.some.injEq, Prod.mk.injEq] at h
        obtain ⟨rfl, rfl⟩ := h
        constructor
        · simp [List.takeWhile_append_dropWhile]
        · intro x hx
          rcases hx with _ | hx
          · decide
          · exact takeWhile_isDigit_noQuote rest x (by assumption)
    · have : parseFrac (c :: rest) = some ([], c :: rest) := by
        rcases c with ⟨⟨n⟩, hvalid⟩
        simp only [parseFrac]
        split
        · rename_i heq
          exact absurd (by injection heq) hdot
        · rfl
      rw [this] at h
      simp only [Option.some.injEq, Prod.mk.injEq] at h
      obtain ⟨rfl, rfl⟩ := h
      exact ⟨rfl, by simp⟩

theorem parseExp_consumed {l ep r : List Char}
    (h : parseExp l = some (ep, r)) :
    l = ep ++ r ∧ ∀ c ∈ ep, c ≠ '"' := by
  rcases l with _ | ⟨c, rest⟩
  · simp only [parseExp, Option.some.injEq, Prod.mk.injEq] at h
    obtain ⟨rfl, rfl⟩ := h
    exact ⟨rfl, by simp⟩
  · simp only [parseExp] at h
    by_cases he : c = 'e' ∨ c = 'E'
    · rw [if_pos he] at h
      have hcq : c ≠ '"' := by
        rcases he with rfl | rfl <;> decide
      rcases rest with _ | ⟨s0, rest2⟩
      · cases h
      · simp only at h
        by_cases hs : s0 = '+' ∨ s0 = '-'
        · rw [if_pos hs] at h
          split at h
          · cases h
          · simp only [Option.some.injEq, Prod.mk.injEq] at h
            obtain ⟨rfl, rfl⟩ := h
            constructor
            · simp [List.takeWhile_append_dropWhile]
            · intro x hx
              simp only [List.mem_cons] at hx
              rcases hx with rfl | rfl | hx
              · exact hcq
              · rcases hs with rfl | rfl <;> decide
              · exact takeWhile_isDigit_noQuote rest2 x hx
        · rw [if_neg hs] at h
          split at h
          · cases h
          · simp only [Option.some.injEq, Prod.mk.injEq] at h
            obtain ⟨rfl, rfl⟩ := h
            constructor
            · simp [List.takeWhile_append_dropWhile]
            · intro x hx
              simp only [List.mem_cons] at hx
              rcases hx with rfl | hx
              · exact hcq
              · exact takeWhile_isDigit_noQuote (s0 :: rest2) x hx
    · rw [if_neg he] at h
      simp only [Option.some.injEq, Prod.mk.injEq] at h
      obtain ⟨rfl, rfl⟩ := h
      exact ⟨rfl, by simp⟩

theorem parseNumTail_consumed {neg m lex r : List Char}
    (h : parseNumTail neg m = some (lex, r)) (hneg : ∀ c ∈ neg, c ≠ '"') :
    neg ++ m = lex ++ r ∧ ∀ c ∈ lex, c ≠ '"' := by
  unfold parseNumTail at h
  rcases hip : parseIntPart m with _ | ⟨ip, l2⟩
  · rw [hip] at h; simp at h
  · rw [hip] at h
    simp only at h
    rcases hfp : parseFrac l2 with _ | ⟨fp, l3⟩
    · rw [hfp] at h; simp at h
    · rw [hfp] at h
      simp only at h
      rcases hep : parseExp l3 with _ | ⟨ep, l4⟩
      · rw [hep] at h; simp at h
      · rw [hep] at h
        simp only [Option.some.injEq, Prod.mk.injEq] at h
        obtain ⟨rfl, rfl⟩ := h
        obtain ⟨hd1, hq1⟩ := parseIntPart_consumed hip
        obtain ⟨hd2, hq2⟩ := parseFrac_consumed hfp
        obtain ⟨hd3, hq3⟩ := parseExp_consumed hep
        constructor
        · rw [hd1, hd2, hd3]
          simp [List.append_assoc]
        · intro x hx
          simp only [List.mem_append] at hx
          rcases hx with ((hx | hx) | hx) | hx
          · exact hneg x hx
          · exact hq1 x hx
          · exact hq2 x hx
          · exact hq3 x hx

theorem parseNumber_consumed {l lex r : List Char}
    (h : parseNumber l = some (lex, r)) :
    l = lex ++ r ∧ ∀ c ∈ lex, c ≠ '"' := by
  rcases l with _ | ⟨c, rest⟩
  · have : parseNumber [] = parseNumTail [] [] := rfl
    rw [this] at h
    obtain ⟨hd, hq⟩ := parseNumTail_consumed h (by simp)
    exact ⟨by simpa using hd, hq⟩
  · by_cases hneg : c = '-'
    · subst hneg
      have : parseNumber ('-' :: rest) = parseNumTail ['-'] rest := rfl
      rw [this] at h
      obtain ⟨hd, hq⟩ := parseNumTail_consumed h (by decide)
      exact ⟨by simpa using hd, hq⟩
    · have hred : parseNumber (c :: rest) = parseNumTail [] (c :: rest) := by
        rcases c with ⟨⟨n⟩, hvalid⟩
        simp only [parseNumber]
        split
        · rename_i heq
          exact absurd (by injection heq) hneg
        · rfl
      rw [hred] at h
      obtain ⟨hd, hq⟩ := parseNumTail_consumed h (by simp)
      exact ⟨by simpa using hd, hq⟩

theorem parseRun_consumed :
    ∀ (fuel : Nat) (mode : PMode) (l : List Char) (v : JValue) (r : List Char),
      parseRun fuel mode l = some (v, r) → ∃ c, l = c ++ r ∧ StrClean c := by
  intro fuel
  induction fuel with
  | zero => intro mode l v r h; simp [parseRun] at h
  | succ fuel ih =>
    intro mode l v r h
    cases mode with
    | val =>
      rcases l with _ | ⟨c, rest⟩
      · simp [parseRun] at h
      · simp only [parseRun] at h
        by_cases h1 : c = '{'
        · subst h1
          rw [if_pos rfl] at h
          split at h
          · rename_i r2 heq
            simp only [Option.some.injEq, Prod.mk.injEq] at h
            obtain ⟨-, rfl⟩ := h
            refine ⟨'{' :: (rest.takeWhile jsonWs ++ ['}']), ?_, ?_⟩
            · have hr := skipWs_split rest
              rw [heq] at hr
              conv_lhs => rw [hr]
              simp
            · exact strClean_cons (by decide)
                (strClean_append (strClean_ws_take rest)
                  (strClean_singleton (by decide)))
          · obtain ⟨cc, hdec, hcc⟩ := ih _ _ _ _ h
            refine ⟨'{' :: (rest.takeWhile jsonWs ++ cc), ?_, ?_⟩
            · have hr := skipWs_split rest
              rw [hdec] at hr
              conv_lhs => rw [hr]
              simp
            · exact strClean_cons (by decide)
                (strClean_append (strClean_ws_take rest) hcc)
        · rw [if_neg h1] at h
          by_cases h2 : c = '['
          · subst h2
            rw [if_pos rfl] at h
            split at h
            · rename_i r2 heq
              simp only [Option.some.injEq, Prod.mk.injEq] at h
              obtain ⟨-, rfl⟩ := h
              refine ⟨'[' :: (rest.takeWhile jsonWs ++ [']']), ?_, ?_⟩
              · have hr := skipWs_split rest
                rw [heq] at hr
                conv_lhs => rw [hr]
                simp
              · exact strClean_cons (by decide)
                  (strClean_append (strClean_ws_take rest)
                    (strClean_singleton (by decide)))
            · obtain ⟨cc, hdec, hcc⟩ := ih _ _ _ _ h
              refine ⟨'[' :: (rest.takeWhile jsonWs ++ cc), ?_, ?_⟩
              · have hr := skipWs_split rest
                rw [hdec] at hr
                conv_lhs => rw [hr]
                simp
              · exact strClean_cons (by decide)
                  (strClean_append (strClean_ws_take rest) hcc)
          · rw [if_neg h2] at h
            by_cases h3 : c = '"'
            · subst h3
              rw [if_pos rfl] at h
              rcases hsb : parseStringBody (rest.length + 1) rest with _ | ⟨s', r'⟩
              · rw [hsb] at h; simp at h
              · rw [hsb] at h
                simp only [Option.some.injEq, Prod.mk.injEq] at h
                obtain ⟨-, hr⟩ := h
                subst hr
                obtain ⟨cc, hdec, hclose⟩ := parseStringBody_consumed _ _ _ _ hsb
                subst hdec
                exact ⟨'"' :: cc, rfl, strClean_string hclose⟩
            · rw [if_neg h3] at h
              by_cases h4 : c = 't'
              · subst h4
                rw [if_pos rfl] at h
                split at h
                · rename_i r' heq
                  simp only [Option.some.injEq, Prod.mk.injEq] at h
                  obtain ⟨-, rfl⟩ := h
                  exact ⟨['t', 'r', 'u', 'e'], rfl, noQuote_strClean (by decide)⟩
                · cases h
              · rw [if_neg h4] at h
                by_cases h5 : c = 'f'
                · subst h5
                  rw [if_pos rfl] at h
                  split at h
                  · rename_i r' heq
                    simp only [Option.some.injEq, Prod.mk.injEq] at h
                    obtain ⟨-, rfl⟩ := h
                    exact ⟨['f', 'a', 'l', 's', 'e'], rfl, noQuote_strClean (by decide)⟩
                  · cases h
                · rw [if_neg h5] at h
                  by_cases h6 : c = 'n'
                  · subst h6
                    rw [if_pos rfl] at h
                    split at h
                    · rename_i r' heq
                      simp only [Option.some.injEq, Prod.mk.injEq] at h
                      obtain ⟨-, rfl⟩ := h
                      exact ⟨['n', 'u', 'l', 'l'], rfl, noQuote_strClean (by decide)⟩
                    · cases h
                  · rw [if_neg h6] at h
                    by_cases h7 : c = '-' ∨ isDigit c
                    · rw [if_pos h7] at h
                      rcases hnum : parseNumber (c :: rest) with _ | ⟨lex, r'⟩
                      · rw [hnum] at h; simp at h
                      · rw [hnum] at h
                        simp only [Option.some.injEq, Prod.mk.injEq] at h
                        obtain ⟨-, hr⟩ := h
                        subst hr
                        obtain ⟨hdec, hnq⟩ := parseNumber_consumed hnum
                        exact ⟨lex, hdec, noQuote_strClean hnq⟩
                    · rw [if_neg h7] at h
                      cases h
    | elems acc =>
      simp only [parseRun] at h
      rcases hv : parseRun fuel PMode.val l with _ | ⟨v1, r1⟩
      · rw [hv] at h; simp at h
      · rw [hv] at h
        simp only at h
        obtain ⟨cc, hdec, hcc⟩ := ih _ _ _ _ hv
        split at h
        · rename_i r3 heq
          simp only [Option.some.injEq, Prod.mk.injEq] at h
          obtain ⟨-, rfl⟩ := h
          refine ⟨cc ++ (r1.takeWhile jsonWs ++ [']']), ?_, ?_⟩
          · have hr := skipWs_split r1
            rw [heq] at hr
            conv_lhs => rw [hdec, hr]
            simp
          · exact strClean_append hcc
              (strClean_append (strClean_ws_take r1)
                (strClean_singleton (by decide)))
        · rename_i r3 heq
          obtain ⟨cc2, hdec2, hcc2⟩ := ih _ _ _ _ h
          refine ⟨cc ++ (r1.takeWhile jsonWs ++
            ',' :: (r3.takeWhile jsonWs ++ cc2)), ?_, ?_⟩
          · have hr := skipWs_split r1
            rw [heq] at hr
            have hr3 := skipWs_split r3
            rw [hdec2] at hr3
            conv_lhs => rw [hdec, hr, hr3]
            simp
          · exact strClean_append hcc
              (strClean_append (strClean_ws_take r1)
                (strClean_cons (by decide)
                  (strClean_append (strClean_ws_take r3) hcc2)))
        · cases h
    | members acc =>
      simp only [parseRun] at h
      split at h
      · rename_i rk
        rcases hsb : parseStringBody (rk.length + 1) rk with _ | ⟨k', r1⟩
        · rw [hsb] at h; simp at h
        · rw [hsb] at h
          simp only at h
          obtain ⟨ck, hdk, hkclose⟩ := parseStringBody_consumed _ _ _ _ hsb
          split at h
          · rename_i r2 heq1
            rcases hv : parseRun fuel PMode.val (skipWs r2) with _ | ⟨v1, r3⟩
            · rw [hv] at h; simp at h
            · rw [hv] at h
              simp only at h
              obtain ⟨cv, hdv, hcv⟩ := ih _ _ _ _ hv
              split at h
              · rename_i r4 heq2
                simp only [Option.some.injEq, Prod.mk.injEq] at h
                obtain ⟨-, rfl⟩ := h
                refine ⟨'"' :: (ck ++ (r1.takeWhile jsonWs ++
                  ':' :: (r2.takeWhile jsonWs ++ (cv ++
                    (r3.takeWhile jsonWs ++ ['}']))))), ?_, ?_⟩
                · have hr1 := skipWs_split r1
                  rw [heq1] at hr1
                  have hr2 := skipWs_split r2
                  rw [hdv] at hr2
                  have hr3 := skipWs_split r3
                  rw [heq2] at hr3
                  conv_lhs => rw [hdk, hr1, hr2, hr3]
                  simp
                · refine strClean_append (strClean_string hkclose) ?_
                  refine strClean_append (strClean_ws_take r1) ?_
                  refine strClean_cons (by decide) ?_
                  refine strClean_append (strClean_ws_take r2) ?_
                  refine strClean_append hcv ?_
                  exact strClean_append (strClean_ws_take r3)
                    (strClean_singleton (by decide))
              · rename_i r4 heq2
                obtain ⟨cc2, hdec2, hcc2⟩ := ih _ _ _ _ h
                refine ⟨'"' :: (ck ++ (r1.takeWhile jsonWs ++
                  ':' :: (r2.takeWhile jsonWs ++ (cv ++
                    (r3.takeWhile jsonWs ++
                      ',' :: (r4.takeWhile jsonWs ++ cc2)))))), ?_, ?_⟩
                · have hr1 := skipWs_split r1
                  rw [heq1] at hr1
                  have hr2 := skipWs_split r2
                  rw [hdv] at hr2
                  have hr3 := skipWs_split r3
                  rw [heq2] at hr3
                  have hr4 := skipWs_split r4
                  rw [hdec2] at hr4
                  conv_lhs => rw [hdk, hr1, hr2, hr3, hr4]
                  simp
                · refine strClean_append (strClean_string hkclose) ?_
                  refine strClean_append (strClean_ws_take r1) ?_
                  refine strClean_cons (by decide) ?_
                  refine strClean_append (strClean_ws_take r2) ?_
                  refine strClean_append hcv ?_
                  refine strClean_append (strClean_ws_take r3) ?_
                  refine strClean_cons (by decide) ?_
                  exact strClean_append (strClean_ws_take r4) hcc2
              · cases h
          · cases h
      · cases h

/-- A text accepted by the standard parse is scanned (from any stack, from
outside a string) to a state that is again outside any string. -/
theorem jsonParse_scan_clean {l : List Char} {v : JValue}
    (h : jsonParse l = some v) :
    ∀ st : ScanState, st.inString = false → st.escaped = false →
      (scanFrom st l).inString = false := by
  unfold jsonParse at h
  rcases hrun : parseRun (2 * l.length + 2) PMode.val (skipWs l) with _ | ⟨v1, r1⟩
  · rw [hrun] at h; simp at h
  · rw [hrun] at h
    simp only at h
    split at h
    · rename_i hnil
      obtain ⟨cc, hdec, hcc⟩ := parseRun_consumed _ _ _ _ _ hrun
      have hclean : StrClean l := by
        have hsplit : l = l.takeWhile jsonWs ++ (cc ++ r1) := by
          conv_lhs => rw [skipWs_split l, hdec]
        rw [hsplit]
        refine strClean_append (strClean_ws_take l) ?_
        refine strClean_append hcc ?_
        exact noQuote_strClean
          (fun c hc => jsonWs_ne_quote (dropWhile_eq_nil_all hnil c hc))
      intro st h1 h2
      exact (hclean st h1 h2).1
    · cases h

/-- Every character ever pushed on the scan stack is a closer. -/
theorem scanStep_stack_closers {st : ScanState} {c : Char}
    (h : ∀ x ∈ st.stack, x = '}' ∨ x = ']') :
    ∀ x ∈ (scanStep st c).stack, x = '}' ∨ x = ']' := by
  intro x hx
  unfold scanStep at hx
  split at hx
  · exact h x hx
  · split at hx
    · simp only [List.mem_cons] at hx
      rcases hx with rfl | hx
      · exact Or.inl rfl
      · exact h x hx
    · split at hx
      · simp only [List.mem_cons] at hx
        rcases hx with rfl | hx
        · exact Or.inr rfl
        · exact h x hx
      · split at hx
        · split at hx
          · rename_i popped restStack hstk
            split at hx
            · dsimp only at hx
              exact h x (by rw [hstk]; exact List.mem_cons_of_mem popped hx)
            · dsimp only at hx
              exact h x hx
          · dsimp only at hx
            exact h x hx
        · exact h x hx

theorem scanFrom_stack_closers {l : List Char} {st : ScanState}
    (h : ∀ x ∈ st.stack, x = '}' ∨ x = ']') :
    ∀ x ∈ (scanFrom st l).stack, x = '}' ∨ x = ']' := by
  induction l generalizing st with
  | nil => exact h
  | cons c l ih =>
    rw [scanFrom_cons]
    exact ih (scanStep_stack_closers h)

/-- A character other than a quote never leaves the in-string state. -/
theorem scanStep_stays_inString {st : ScanState} {c : Char} (hc : c ≠ '"')
    (h : st.inString = true) : (scanStep st c).inString = true := by
  obtain ⟨stk, instr, esc⟩ := st
  simp only at h
  subst h
  have ht : quoteToggle ⟨stk, true, esc⟩ c = true := by
    simp [quoteToggle, hc]
  unfold scanStep
  rw [ht]
  simp

theorem scanFrom_stays_inString {l : List Char} {st : ScanState}
    (hl : ∀ c ∈ l, c ≠ '"') (h : st.inString = true) :
    (scanFrom st l).inString = true := by
  induction l generalizing st with
  | nil => exact h
  | cons c l ih =>
    rw [scanFrom_cons]
    exact ih (fun x hx => hl x (by simp [hx]))
      (scanStep_stays_inString (hl c (by simp)) h)

/-- If the structural scan of the quote-patched text ends inside a string,
appending the stacked closers cannot produce parseable JSON: the closers
are scanned inside the still-open string, so the final text also ends
inside a string, which no accepted text does. -/
theorem repair_unparseable_of_inString {l : List Char}
    (h : (scanChars (quotePatch l)).inString = true) :
    jsonParse (repair l) = none := by
  rcases hp : jsonParse (repair l) with _ | v
  · rfl
  · exfalso
    have hclean := jsonParse_scan_clean hp ⟨[], false, false⟩ rfl rfl
    have hstk : ∀ x ∈ (scanChars (quotePatch l)).stack, x = '}' ∨ x = ']' :=
      scanFrom_stack_closers (by intro x hx; cases hx)
    have : (scanFrom ⟨[], false, false⟩ (repair l)).inString = true := by
      unfold repair closeBrackets
      rw [scanFrom_append]
      refine scanFrom_stays_inString ?_ h
      intro c hc
      rcases hstk c hc with rfl | rfl <;> decide
    rw [show scanFrom ⟨[], false, false⟩ (repair l) = scanChars (repair l)
      from rfl] at this
    rw [show (scanChars (repair l)).inString =
      (scanFrom ⟨[], false, false⟩ (repair l)).inString from rfl] at this
    exact absurd (this ▸ hclean) (by simp [this])

/-! ### The claims -/

/-- C1: on any input whose trimmed form parses directly, `robustParseJSON`
returns exactly the standard parse of the trimmed text (stage 1
short-circuits, no repair is performed), and surrounding any text by
whitespace never changes the result. -/
theorem c1_valid_input_roundtrip :
    (∀ (t : List Char) (v : JValue), jsonParse (jsTrim t) = some v →
      robustParseJSON t = Except.ok v) ∧
    (∀ w1 w2 t : List Char, (∀ c ∈ w1, jsWhite c = true) →
      (∀ c ∈ w2, jsWhite c = true) →
      robustParseJSON (w1 ++ t ++ w2) = robustParseJSON t) := by
  constructor
  · intro t v h
    exact robustParseJSON_ok h
  · intro w1 w2 t h1 h2
    apply robustParseJSON_congr
    calc jsTrim (w1 ++ t ++ w2) = jsTrim (t ++ w2) := by
          rw [List.append_assoc]
          exact jsTrim_white_append _ h1
      _ = jsTrim t := jsTrim_append_white t h2

/-- Witness for C1 at concrete inputs. -/
theorem c1_valid_input_roundtrip_witness :
    robustParseJSON [' ', 't', 'r', 'u', 'e'] = Except.ok (JValue.bool true) ∧
    robustParseJSON ([' '] ++ ['1'] ++ ['\n']) = robustParseJSON ['1'] :=
  ⟨c1_valid_input_roundtrip.1 [' ', 't', 'r', 'u', 'e'] (JValue.bool true) rfl,
   c1_valid_input_roundtrip.2 [' '] ['\n'] ['1'] (by decide) (by decide)⟩

/-- C2 counterexample: on the specification's escaped-quote example the
function does not succeed; it raises the error. -/
theorem c2_escaped_quote_counterexample :
    robustParseJSON c2in = Except.error malformedMsg := rfl

/-- C2 (amended): on the escaped-quote example the scan does not miscount
the escaped quote as a delimiter (after 18 characters, right past the
escaped quote, the scan is still inside the string), but the raw quote
count is even, so no quote is appended; the scan ends inside the open
string with one pending closer, the closer is appended inside the string
literal, and the final parse fails, so the function raises the error
rather than succeeding. -/
theorem c2_escaped_quote_amended :
    countQuotes (jsTrim c2in) % 2 = 0 ∧
    quotePatch (jsTrim c2in) = jsTrim c2in ∧
    (scanFrom ⟨[], false, false⟩ (List.take 18 c2in)).inString = true ∧
    (scanChars (jsTrim c2in)).inString = true ∧
    (scanChars (jsTrim c2in)).stack = ['}'] ∧
    repair (jsTrim c2in) = jsTrim c2in ++ ['}'] ∧
    robustParseJSON c2in = Except.error malformedMsg :=
  ⟨rfl, rfl, rfl, rfl, rfl, rfl, rfl⟩

/-- C3 counterexample: for the input consisting of the letter x the direct
parse fails, yet the repaired text equals the trimmed input, so the trimmed
form is not a strict prefix of it. -/
theorem c3_append_only_counterexample :
    jsonParse (jsTrim ['x']) = none ∧ repair (jsTrim ['x']) = jsTrim ['x'] :=
  ⟨rfl, rfl⟩

/-- C3 (amended): for every input on which the direct parse fails, the
repaired text extends the trimmed text by a (possibly empty) appended
suffix; the recovery never deletes, reorders or rewrites a character. -/
theorem c3_append_only_amended :
    ∀ t : List Char, jsonParse (jsTrim t) = none →
      ∃ s, repair (jsTrim t) = jsTrim t ++ s := by
  intro t _
  unfold repair closeBrackets quotePatch
  by_cases hq : countQuotes (jsTrim t) % 2 ≠ 0
  · rw [if_pos hq]
    exact ⟨'"' :: (scanChars (jsTrim t ++ ['"'])).stack, by simp⟩
  · rw [if_neg hq]
    exact ⟨(scanChars (jsTrim t)).stack, rfl⟩

/-- Witness for C3 (amended) at a concrete failing input. -/
theorem c3_append_only_amended_witness :
    repair (jsTrim ['{']) = jsTrim ['{'] ++ ['}'] := by
  obtain ⟨s, hs⟩ := c3_append_only_amended ['{'] rfl
  have h2 : jsTrim ['{'] ++ s = ['{', '}'] := by
    rw [← hs]; rfl
  rw [show jsTrim ['{'] = ['{'] from rfl] at h2
  have h3 : s = ['}'] := by simpa using h2
  rw [hs, h3]

/-- C4: when the quote count of the text is odd exactly one quote is
appended (none when it is even), and the truncated example recovers to an
object mapping the key a to the string hello. -/
theorem c4_odd_quote_repair :
    (∀ l : List Char, countQuotes l % 2 ≠ 0 → quotePatch l = l ++ ['"']) ∧
    (∀ l : List Char, countQuotes l % 2 = 0 → quotePatch l = l) ∧
    quotePatch (jsTrim c4in) = jsTrim c4in ++ ['"'] ∧
    robustParseJSON c4in =
      Except.ok (JValue.obj [(jstr ("a"), JValue.str (jstr ("hello")))]) := by
  refine ⟨?_, ?_, rfl, rfl⟩
  · intro l h
    unfold quotePatch
    rw [if_pos h]
  · intro l h
    unfold quotePatch
    rw [if_neg (by simp [h])]

/-- Witness for C4 at concrete quote counts. -/
theorem c4_odd_quote_repair_witness :
    quotePatch ['"'] = ['"'] ++ ['"'] ∧ quotePatch ['{'] = ['{'] :=
  ⟨c4_odd_quote_repair.1 ['"'] (by decide),
   c4_odd_quote_repair.2.1 ['{'] (by decide)⟩

/-- C5: on the nested truncated example the pending closers are appended in
pop order, closing the inner object, then the array, then the outer object,
and the repaired text parses to the expected nested structure. -/
theorem c5_nested_truncation :
    (scanChars (quotePatch (jsTrim c5in))).stack = ['}', ']', '}'] ∧
    repair (jsTrim c5in) = jsTrim c5in ++ ['}', ']', '}'] ∧
    robustParseJSON c5in = Except.ok (JValue.obj [(jstr ("a"),
      JValue.arr [JValue.num ['1'], JValue.num ['2'],
        JValue.obj [(jstr ("b"), JValue.num ['3'])]])]) :=
  ⟨rfl, rfl, rfl⟩

/-- C6: whenever the direct parse and the parse of the repaired text both
fail, the function returns exactly the single fixed error message (it never
returns a partial value), as on the malformed example. -/
theorem c6_malformed_error :
    (∀ t : List Char, jsonParse (jsTrim t) = none →
      jsonParse (repair (jsTrim t)) = none →
      robustParseJSON t = Except.error malformedMsg) ∧
    robustParseJSON c6in = Except.error malformedMsg :=
  ⟨fun _ h1 h2 => robustParseJSON_err h1 h2, rfl⟩

/-- Witness for C6 at a concrete doubly-failing input. -/
theorem c6_malformed_error_witness :
    robustParseJSON ['{', ']'] = Except.error malformedMsg :=
  c6_malformed_error.1 ['{', ']'] rfl rfl

/-- C7: during the scan, outside any string, an unexpected closer (empty
stack or mismatched top) leaves the state unchanged, and a matching closer
pops exactly the top of the stack. -/
theorem c7_unexpected_closer_ignored :
    ∀ (st : ScanState) (c : Char), st.inString = false →
      (c = '}' ∨ c = ']') →
      ((st.stack = [] → scanStep st c = st) ∧
       (∀ top restStack, st.stack = top :: restStack → top ≠ c →
         scanStep st c = st) ∧
       (∀ restStack, st.stack = c :: restStack →
         scanStep st c = { st with stack := restStack })) := by
  intro st c h1 h2
  obtain ⟨stk, instr, esc⟩ := st
  simp only at h1
  subst h1
  refine ⟨?_, ?_, ?_⟩
  · intro hnil
    simp only at hnil
    subst hnil
    rcases h2 with rfl | rfl <;> simp [scanStep, quoteToggle]
  · intro top restStack hstk hne
    simp only at hstk
    subst hstk
    rcases h2 with rfl | rfl <;>
      simp [scanStep, quoteToggle, hne]
  · intro restStack hstk
    simp only at hstk
    subst hstk
    rcases h2 with rfl | rfl <;> simp [scanStep, quoteToggle]

/-- Witness for C7 at concrete scan states. -/
theorem c7_unexpected_closer_ignored_witness :
    scanStep ⟨[], false, false⟩ '}' = ⟨[], false, false⟩ ∧
    scanStep ⟨['}'], false, false⟩ ']' = ⟨['}'], false, false⟩ ∧
    scanStep ⟨['}'], false, false⟩ '}' = ⟨[], false, false⟩ :=
  ⟨(c7_unexpected_closer_ignored ⟨[], false, false⟩ '}' rfl (Or.inl rfl)).1 rfl,
   (c7_unexpected_closer_ignored ⟨['}'], false, false⟩ ']' rfl
     (Or.inr rfl)).2.1 '}' [] rfl (by decide),
   (c7_unexpected_closer_ignored ⟨['}'], false, false⟩ '}' rfl
     (Or.inl rfl)).2.2 [] rfl⟩

/-- C8 counterexample: the standard parse the function delegates to
deduplicates duplicate object keys (last value wins), so an input with two
occurrences of the key a yields a single member. -/
theorem c8_order_counterexample :
    jsonParse c8dup = some (JValue.obj [(jstr ("a"), JValue.num ['2'])]) := rfl

/-- C8 (amended): member insertion appends at the end when the key is not
already present, so objects whose literals have pairwise distinct keys keep
their members, and arrays their elements, exactly in input order; duplicate
keys are collapsed by the underlying standard parse, last value winning. -/
theorem c8_order_amended :
    (∀ (acc : List (List Nat × JValue)) (k : List Nat) (v : JValue),
      (∀ p ∈ acc, p.1 ≠ k) → insertMember acc k v = acc ++ [(k, v)]) ∧
    jsonParse c8ord = some (JValue.obj [(jstr ("b"), JValue.num ['1']),
      (jstr ("a"), JValue.num ['2']),
      (jstr ("c"), JValue.arr [JValue.num ['3'], JValue.num ['1'],
        JValue.num ['2']])]) := by
  refine ⟨?_, rfl⟩
  intro acc k v h
  unfold insertMember
  rw [if_neg ?_]
  simp only [List.any_eq_true, beq_iff_eq]
  rintro ⟨p, hp, hpk⟩
  exact h p hp hpk

/-- Witness for C8 (amended) at a concrete fresh key. -/
theorem c8_order_amended_witness :
    insertMember [(jstr ("a"), JValue.num ['1'])] (jstr ("b"))
        (JValue.num ['2']) =
      [(jstr ("a"), JValue.num ['1'])] ++ [(jstr ("b"), JValue.num ['2'])] :=
  c8_order_amended.1 _ _ _ (by decide)

/-- C9: the empty input and every whitespace-only input trim to the empty
text, whose direct parse fails, whose repair is again empty, and whose
final parse fails, so the function raises the fixed error. -/
theorem c9_empty_whitespace_error :
    ∀ t : List Char, (∀ c ∈ t, jsWhite c = true) →
      jsTrim t = [] ∧ robustParseJSON t = Except.error malformedMsg := by
  intro t h
  have htrim : jsTrim t = [] := jsTrim_eq_nil_of_white h
  refine ⟨htrim, ?_⟩
  apply robustParseJSON_err
  · rw [htrim]; rfl
  · rw [htrim]; rfl

/-- Witness for C9 on the empty input and a whitespace-only input. -/
theorem c9_empty_whitespace_error_witness :
    (jsTrim [] = [] ∧ robustParseJSON [] = Except.error malformedMsg) ∧
    (jsTrim [' ', '\n', ' '] = [] ∧
      robustParseJSON [' ', '\n', ' '] = Except.error malformedMsg) :=
  ⟨c9_empty_whitespace_error [] (by decide),
   c9_empty_whitespace_error [' ', '\n', ' '] (by decide)⟩

/-- C10: when the direct parse fails and the scan of the quote-patched text
ends inside a string literal, every appended closer lands inside that open
string, the final parse necessarily fails, and the function raises the
fixed error. -/
theorem c10_unterminated_string_error :
    ∀ t : List Char, jsonParse (jsTrim t) = none →
      (scanChars (quotePatch (jsTrim t))).inString = true →
      robustParseJSON t = Except.error malformedMsg := by
  intro t h1 h2
  exact robustParseJSON_err h1 (repair_unparseable_of_inString h2)

/-- Witness for C10 at a concrete input ending inside a string. -/
theorem c10_unterminated_string_error_witness :
    robustParseJSON c10in = Except.error malformedMsg :=
  c10_unterminated_string_error c10in rfl rfl
